import Mathlib

/-!
# Verification of the backtesting engine (src/backtester.py)

Shallow embedding of the `Backtester` class: the trade executor
(`execute_trade`), the decision parsing step (`parse_action`), the
simulation loop (`run_backtest`) and the performance analyzer
(`analyze_performance`).  Python numbers (ints and floats used for cash,
stock and prices) are modelled as rationals; the special IEEE values
NaN/±inf that arise in the analyzer are modelled by an extended type
`PFloat`.
-/

/-- A portfolio: `self.portfolio = {"cash": ..., "stock": ...}`
(backtester.py line 16).  `cash` and `stock` are Python numbers,
modelled as rationals. -/
structure Portfolio where
  cash : ℚ
  stock : ℚ
  deriving DecidableEq, Repr

/-- Model of `Backtester.execute_trade(action, quantity, current_price)`
(backtester.py lines 29-52), returning the filled quantity together with
the updated portfolio (the Python method mutates `self.portfolio` in
place and returns the filled quantity).  Python's floor division
`cash // current_price` on line 39 is modelled by `⌊cash / price⌋`. -/
def execute_trade (action : String) (quantity current_price : ℚ)
    (p : Portfolio) : ℚ × Portfolio :=
  if action = "buy" ∧ quantity > 0 then
    let cost := quantity * current_price
    if cost ≤ p.cash then
      (quantity, ⟨p.cash - cost, p.stock + quantity⟩)
    else
      let max_quantity : ℚ := (⌊p.cash / current_price⌋ : ℤ)
      if max_quantity > 0 then
        (max_quantity, ⟨p.cash - max_quantity * current_price,
                        p.stock + max_quantity⟩)
      else (0, p)
  else if action = "sell" ∧ quantity > 0 then
    let quantity2 := min quantity p.stock
    if quantity2 > 0 then
      (quantity2, ⟨p.cash + quantity2 * current_price, p.stock - quantity2⟩)
    else (0, p)
  else (0, p)

/-- The state after a sequence of `execute_trade` calls, each call given
as `(action, quantity, current_price)`. -/
def execSeq (calls : List (String × ℚ × ℚ)) (p : Portfolio) : Portfolio :=
  calls.foldl (fun s c => (execute_trade c.1 c.2.1 c.2.2 s).2) p

/-- A decoded JSON value, the possible results of `json.loads` on the
agent output (backtester.py line 23). -/
inductive Json where
  | null : Json
  | bool (b : Bool) : Json
  | num (q : ℚ) : Json
  | str (s : String) : Json
  | arr (xs : List Json) : Json
  | obj (fields : List (String × Json)) : Json

/-- Subscripting a Python dict built by `json.loads`: the value bound to
the key, later bindings winning, `none` when the key is absent
(a `KeyError` in Python). -/
def lookupField (fields : List (String × Json)) (k : String) : Option Json :=
  fields.foldl (fun acc f => if f.1 = k then some f.2 else acc) none

/-- Model of `Backtester.parse_action(agent_output)` (backtester.py lines 19-27).
Its input is the result of `json.loads` on the agent output: `none` when
decoding raised `json.JSONDecodeError`.  The method evaluates
`decision["action"], decision["quantity"]`; if decoding failed, the
decoded value is not an object (`TypeError`), or either key is missing
(`KeyError`), the bare `except` catches the exception and the method
returns the default `("hold", 0)`.  Otherwise the two field values are
returned verbatim, whatever their types. -/
def parse_action (decoded : Option Json) : Json × Json :=
  match decoded with
  | some (Json.obj fields) =>
    match lookupField fields "action", lookupField fields "quantity" with
    | some a, some q => (a, q)
    | _, _ => (Json.str "hold", Json.num 0)
  | _ => (Json.str "hold", Json.num 0)

/-- The property claim C4 asserts of an input: it decodes to an object
carrying an `action` field and a numeric `quantity` field. -/
def decodesWellTyped (decoded : Option Json) : Prop :=
  ∃ fields a q, decoded = some (Json.obj fields) ∧
    lookupField fields "action" = some a ∧
    lookupField fields "quantity" = some (Json.num q)

/-- A Python/numpy float as it appears in `analyze_performance`:
either an exact numeric value (modelled as a rational) or one of the
special values NaN, `+inf`, `-inf` produced by `0.0/0.0`, `x/0.0`
and their propagation. -/
inductive PFloat where
  | num (q : ℚ) : PFloat
  | nan : PFloat
  | inf : PFloat
  | ninf : PFloat
  deriving DecidableEq, Repr

/-- IEEE-style addition on `PFloat` (NaN propagates, `inf + (-inf)` is
NaN). -/
def padd : PFloat → PFloat → PFloat
  | .nan, _ => .nan
  | _, .nan => .nan
  | .num a, .num b => .num (a + b)
  | .inf, .ninf => .nan
  | .ninf, .inf => .nan
  | .inf, _ => .inf
  | _, .inf => .inf
  | .ninf, _ => .ninf
  | _, .ninf => .ninf

/-- IEEE-style subtraction on `PFloat`. -/
def psub : PFloat → PFloat → PFloat
  | .nan, _ => .nan
  | _, .nan => .nan
  | .num a, .num b => .num (a - b)
  | .inf, .inf => .nan
  | .ninf, .ninf => .nan
  | .inf, _ => .inf
  | .ninf, _ => .ninf
  | _, .inf => .ninf
  | _, .ninf => .inf

/-- IEEE-style multiplication on `PFloat` (`inf * 0` is NaN). -/
def pmul : PFloat → PFloat → PFloat
  | .nan, _ => .nan
  | _, .nan => .nan
  | .num a, .num b => .num (a * b)
  | .inf, .num b => if b = 0 then .nan else if 0 < b then .inf else .ninf
  | .num a, .inf => if a = 0 then .nan else if 0 < a then .inf else .ninf
  | .ninf, .num b => if b = 0 then .nan else if 0 < b then .ninf else .inf
  | .num a, .ninf => if a = 0 then .nan else if 0 < a then .ninf else .inf
  | .inf, .inf => .inf
  | .inf, .ninf => .ninf
  | .ninf, .inf => .ninf
  | .ninf, .ninf => .inf

/-- IEEE-style division on `PFloat` as numpy performs it on float64
scalars: `0/0` is NaN, `a/0` is `±inf` for `a ≠ 0`, `a/±inf` is 0,
`±inf/±inf` is NaN. -/
def pdiv : PFloat → PFloat → PFloat
  | .nan, _ => .nan
  | _, .nan => .nan
  | .num a, .num b =>
    if b = 0 then (if a = 0 then .nan else if 0 < a then .inf else .ninf)
    else .num (a / b)
  | .num _, .inf => .num 0
  | .num _, .ninf => .num 0
  | .inf, .num b => if 0 ≤ b then .inf else .ninf
  | .ninf, .num b => if 0 ≤ b then .ninf else .inf
  | .inf, .inf => .nan
  | .inf, .ninf => .nan
  | .ninf, .inf => .nan
  | .ninf, .ninf => .nan

/-- Absolute value on `PFloat`. -/
def pabs : PFloat → PFloat
  | .num a => .num |a|
  | .nan => .nan
  | .inf => .inf
  | .ninf => .inf

/-- The order used to state that one `PFloat` is at most another
(comparisons against NaN are false, as in IEEE). -/
def pleq : PFloat → PFloat → Prop
  | .nan, _ => False
  | _, .nan => False
  | .ninf, _ => True
  | _, .inf => True
  | .num a, .num b => a ≤ b
  | .inf, .num _ => False
  | .inf, .ninf => False
  | .num _, .ninf => False

/-- Binary minimum of two non-NaN `PFloat`s (NaN arguments are skipped,
matching pandas' `skipna` reductions). -/
def pmin2 : PFloat → PFloat → PFloat
  | .nan, b => b
  | a, .nan => a
  | .ninf, _ => .ninf
  | _, .ninf => .ninf
  | .num a, .num b => .num (min a b)
  | .num a, .inf => .num a
  | .inf, b => b

/-- Drop the NaN entries of a series, as pandas reductions with the
default `skipna=True` do. -/
def dropNan : List PFloat → List PFloat
  | [] => []
  | x :: xs => if x = PFloat.nan then dropNan xs else x :: dropNan xs

/-- Left-to-right sum of a series (numpy summation). -/
def psum (xs : List PFloat) : PFloat := xs.foldl padd (.num 0)

/-- Model of `Series.mean()` (backtester.py line 119): NaNs are skipped; the mean
of an empty (or all-NaN) series is NaN. -/
def series_mean (xs : List PFloat) : PFloat :=
  let ys := dropNan xs
  if ys.length = 0 then .nan
  else pdiv (psum ys) (.num (ys.length : ℚ))

/-- The square of `Series.std()` (backtester.py line 120), i.e. the
sample variance with `ddof=1`: NaNs are skipped; with fewer than two
remaining observations the result is NaN (pandas divides by `n - 1`).
The square is taken so that the model stays inside the rationals; the
code's standard deviation is its non-negative square root, which is
zero, NaN or positive exactly when this value is. -/
def series_var (xs : List PFloat) : PFloat :=
  let ys := dropNan xs
  if ys.length < 2 then .nan
  else
    pdiv
      (psum (ys.map (fun x =>
        pmul (psub x (series_mean xs)) (psub x (series_mean xs)))))
      (.num ((ys.length - 1 : ℕ) : ℚ))

/-- Model of `Series.pct_change()` (backtester.py line 116): the first entry is
NaN, and entry `i` is `V_i / V_(i-1) - 1`. -/
def pct_change (vs : List ℚ) : List PFloat :=
  match vs with
  | [] => []
  | _ :: rest =>
    PFloat.nan ::
      List.zipWith (fun prev cur => psub (pdiv (.num cur) (.num prev)) (.num 1))
        vs rest

/-- The signed square of the Sharpe ratio computed on backtester.py
lines 119-121, `sharpe_ratio = (mean r / std r) * 252 ** 0.5`: this
model computes `(mean r * |mean r| / var r) * 252`, which is exactly
`sign(sharpe_ratio) * sharpe_ratio ** 2`.  Squaring eliminates the two
irrational square roots (`std = sqrt var` and `252 ** 0.5`) while
preserving precisely what the claims concern: the result is NaN, `+inf`,
`-inf`, zero, positive or negative exactly when the code's
`sharpe_ratio` is. -/
def sharpe_sgnsq (vs : List ℚ) : PFloat :=
  let r := pct_change vs
  let m := series_mean r
  pmul (pdiv (pmul m (pabs m)) (series_var r)) (.num 252)

/-- Helper for `cummax`: running maximum of a list continuing from an
already-seen maximum `m`. -/
def cummaxFrom (m : ℚ) : List ℚ → List ℚ
  | [] => []
  | v :: rest => max m v :: cummaxFrom (max m v) rest

/-- Model of `Series.cummax()` (backtester.py line 125): the running maximum. -/
def cummax : List ℚ → List ℚ
  | [] => []
  | v :: rest => v :: cummaxFrom v rest

/-- The drawdown series of backtester.py line 126:
`performance_df["Portfolio Value"] / rolling_max - 1`, elementwise. -/
def drawdown (vs : List ℚ) : List PFloat :=
  List.zipWith (fun v m => psub (pdiv (.num v) (.num m)) (.num 1))
    vs (cummax vs)

/-- Model of `drawdown.min()` (backtester.py line 127): the minimum of the
drawdown series, skipping NaNs; NaN for an empty or all-NaN series. -/
def max_drawdown (vs : List ℚ) : PFloat :=
  match dropNan (drawdown vs) with
  | [] => .nan
  | y :: rest => rest.foldl pmin2 y

/-- The metrics `Backtester.analyze_performance` (backtester.py
lines 94-130) computes from its inputs (the printed/returned data that
depends on them; the plot and the returned DataFrame carry no further
information). -/
structure Perf where
  total_return : ℚ
  sharpe_sgnsq : PFloat
  max_drawdown : PFloat
  deriving DecidableEq, Repr

/-- Model of `Backtester.analyze_performance` (backtester.py lines 94-130).  Its
inputs are the three pieces of instance state it reads: the recorded
value series `self.portfolio_values` (as the list of portfolio values),
`self.portfolio["portfolio_value"]` (the last computed mark, read on
line 100 for the total return) and `self.initial_capital`.  Total return
is `(portfolio_value - initial_capital) / initial_capital` (faithful for
`initial_capital ≠ 0`; Python raises `ZeroDivisionError` at 0). -/
def analyze_performance (records : List ℚ) (portfolio_value : ℚ)
    (initial_capital : ℚ) : Perf :=
  { total_return := (portfolio_value - initial_capital) / initial_capital
    sharpe_sgnsq := sharpe_sgnsq records
    max_drawdown := max_drawdown records }

/-- The externally visible calls made by one iteration of the
`run_backtest` loop body (backtester.py lines 61-92), in program
order: the agent (decision source) is invoked on line 65, its output is
parsed on line 72, the price window is fetched via `get_price_data` on
line 73, the trade is executed on line 77, the portfolio value is marked
on lines 80-81 and the value record is appended on line 90. -/
inductive LoopEvent where
  | agentInvoke : LoopEvent
  | parseDecision : LoopEvent
  | fetchPrices : LoopEvent
  | trade : LoopEvent
  | markValue : LoopEvent
  | appendRecord : LoopEvent
  deriving DecidableEq, BEq, Repr

/-- The event order of a single simulated day, read off backtester.py
lines 61-92. -/
def dayTrace : List LoopEvent :=
  [LoopEvent.agentInvoke, LoopEvent.parseDecision, LoopEvent.fetchPrices,
   LoopEvent.trade, LoopEvent.markValue, LoopEvent.appendRecord]

/-- The event trace of `run_backtest` over `n` simulated business days:
day after day, each day contributing `dayTrace` tagged with its index. -/
def runTrace : ℕ → List (ℕ × LoopEvent)
  | 0 => []
  | n + 1 => runTrace n ++ dayTrace.map (fun e => (n, e))

/-- The mutable state `run_backtest` threads through its loop: the
portfolio dict (its `cash`, `stock` and optional `portfolio_value`
keys — the last is absent until line 81 first writes it) and the
accumulated `self.portfolio_values` records (each day's total value). -/
structure BState where
  cash : ℚ
  stock : ℚ
  portfolio_value : Option ℚ
  records : List ℚ
  deriving DecidableEq, Repr

/-- One iteration of the `run_backtest` loop body (backtester.py
lines 61-92) given the parsed decision `(action, quantity)` and the
day's `current_price`: execute the trade, recompute
`total_value = cash + stock * current_price`, store it into
`portfolio["portfolio_value"]` (line 81) and append it to
`self.portfolio_values` (line 90). -/
def stepDay (action : String) (quantity current_price : ℚ)
    (s : BState) : BState :=
  let res := execute_trade action quantity current_price ⟨s.cash, s.stock⟩
  let total_value := res.2.cash + res.2.stock * current_price
  { cash := res.2.cash
    stock := res.2.stock
    portfolio_value := some total_value
    records := s.records ++ [total_value] }

/-- Model of `Backtester.run_backtest` (backtester.py lines 54-92) over a given
sequence of days, each supplying that day's parsed decision and
current price. -/
def run_backtest (days : List (String × ℚ × ℚ)) (s : BState) : BState :=
  days.foldl (fun st d => stepDay d.1 d.2.1 d.2.2 st) s

/-- One `execute_trade` call with a positive price preserves
non-negativity of cash and stock. -/
theorem execute_trade_preserves (action : String) (q pr : ℚ) (p : Portfolio)
    (hpr : 0 < pr) (hcash : 0 ≤ p.cash) (hstock : 0 ≤ p.stock) :
    0 ≤ (execute_trade action q pr p).2.cash ∧
      0 ≤ (execute_trade action q pr p).2.stock := by
  simp only [execute_trade]
  split_ifs with h1 h2 h3 h4 h5 <;> dsimp only
  · constructor
    · linarith [h2]
    · linarith [h1.2]
  · have hfl : ((⌊p.cash / pr⌋ : ℤ) : ℚ) ≤ p.cash / pr := Int.floor_le _
    have hmul : ((⌊p.cash / pr⌋ : ℤ) : ℚ) * pr ≤ p.cash := by
      calc ((⌊p.cash / pr⌋ : ℤ) : ℚ) * pr ≤ (p.cash / pr) * pr :=
            mul_le_mul_of_nonneg_right hfl (le_of_lt hpr)
        _ = p.cash := div_mul_cancel₀ _ (ne_of_gt hpr)
    constructor
    · linarith
    · linarith [h3]
  · exact ⟨hcash, hstock⟩
  · have hmin : min q p.stock ≤ p.stock := min_le_right _ _
    constructor
    · have hq5 : 0 < min q p.stock * pr := mul_pos h5 hpr
      linarith
    · linarith
  · exact ⟨hcash, hstock⟩
  · exact ⟨hcash, hstock⟩

/-- C1: starting from `cash ≥ 0 ∧ stock ≥ 0`, any sequence of
`execute_trade` calls with positive prices keeps `cash ≥ 0 ∧ stock ≥ 0`
(no margin, no short positions); since every prefix of such a sequence is
again such a sequence, the invariant holds after every call. -/
theorem C1_executor_invariant (calls : List (String × ℚ × ℚ)) (p : Portfolio)
    (hprices : ∀ c ∈ calls, 0 < c.2.2)
    (hcash : 0 ≤ p.cash) (hstock : 0 ≤ p.stock) :
    0 ≤ (execSeq calls p).cash ∧ 0 ≤ (execSeq calls p).stock := by
  induction calls generalizing p with
  | nil => exact ⟨hcash, hstock⟩
  | cons c rest ih =>
    have hc : 0 < c.2.2 := hprices c (List.mem_cons_self _ _)
    have hstep := execute_trade_preserves c.1 c.2.1 c.2.2 p hc hcash hstock
    have hrest : ∀ d ∈ rest, 0 < d.2.2 := fun d hd =>
      hprices d (List.mem_cons_of_mem _ hd)
    exact ih _ hrest hstep.1 hstep.2

theorem C1_witness :
    (∀ c ∈ ([("buy", (5 : ℚ), (100 : ℚ)), ("sell", 3, 110)] :
        List (String × ℚ × ℚ)), 0 < c.2.2) ∧
    (0 ≤ (execSeq [("buy", 5, 100), ("sell", 3, 110)] ⟨1000, 0⟩).cash ∧
      0 ≤ (execSeq [("buy", 5, 100), ("sell", 3, 110)] ⟨1000, 0⟩).stock) := by
  refine ⟨by norm_num, C1_executor_invariant _ ⟨1000, 0⟩ (by norm_num)
    (by norm_num) (by norm_num)⟩

/-- C2: the three cases of a `buy` with positive quantity and price:
full fill when affordable, affordability-clamp to `⌊cash / price⌋` when
that floor is positive, and no-op returning 0 when the floor is 0. -/
theorem C2_buy_cases (q pr : ℚ) (p : Portfolio) (hq : 0 < q) (hpr : 0 < pr) :
    (q * pr ≤ p.cash →
      execute_trade "buy" q pr p = (q, ⟨p.cash - q * pr, p.stock + q⟩)) ∧
    (¬ q * pr ≤ p.cash → 0 < (⌊p.cash / pr⌋ : ℤ) →
      execute_trade "buy" q pr p =
        (((⌊p.cash / pr⌋ : ℤ) : ℚ),
          ⟨p.cash - ((⌊p.cash / pr⌋ : ℤ) : ℚ) * pr,
           p.stock + ((⌊p.cash / pr⌋ : ℤ) : ℚ)⟩)) ∧
    (¬ q * pr ≤ p.cash → (⌊p.cash / pr⌋ : ℤ) = 0 →
      execute_trade "buy" q pr p = (0, p)) := by
  refine ⟨fun haff => ?_, fun haff hfl => ?_, fun haff hfl => ?_⟩
  · unfold execute_trade
    rw [if_pos ⟨rfl, hq⟩, if_pos haff]
  · unfold execute_trade
    rw [if_pos ⟨rfl, hq⟩, if_neg haff, if_pos (by exact_mod_cast hfl)]
  · unfold execute_trade
    rw [if_pos ⟨rfl, hq⟩, if_neg haff, if_neg (by rw [hfl]; exact lt_irrefl 0)]

theorem C2_witness :
    ((0 : ℚ) < 10 ∧ (0 : ℚ) < 30) ∧
    (¬ (10 * 30 : ℚ) ≤ 100 ∧ (0 : ℤ) < ⌊(100 : ℚ) / 30⌋) ∧
    execute_trade "buy" 10 30 ⟨100, 0⟩ =
      (((⌊(100 : ℚ) / 30⌋ : ℤ) : ℚ),
        ⟨100 - ((⌊(100 : ℚ) / 30⌋ : ℤ) : ℚ) * 30,
         0 + ((⌊(100 : ℚ) / 30⌋ : ℤ) : ℚ)⟩) := by
  have hfl : (⌊(100 : ℚ) / 30⌋ : ℤ) = 3 := by
    rw [Int.floor_eq_iff] <;> norm_num
  refine ⟨⟨by norm_num, by norm_num⟩, ⟨by norm_num, by rw [hfl]; norm_num⟩, ?_⟩
  exact (C2_buy_cases 10 30 ⟨100, 0⟩ (by norm_num) (by norm_num)).2.1
    (by norm_num) (by rw [hfl]; norm_num)

/-- C3: a `sell` with positive quantity fills exactly
`min quantity stock` (for non-negative holdings), pays
`filled * current_price` into cash when the fill is positive, is a no-op
otherwise, never fills more than the pre-trade stock, and leaves
`stock ≥ 0`. -/
theorem C3_sell_cases (q pr : ℚ) (p : Portfolio) (hq : 0 < q)
    (hstock : 0 ≤ p.stock) :
    (execute_trade "sell" q pr p).1 = min q p.stock ∧
    (0 < min q p.stock →
      execute_trade "sell" q pr p =
        (min q p.stock,
          ⟨p.cash + min q p.stock * pr, p.stock - min q p.stock⟩)) ∧
    (¬ 0 < min q p.stock → execute_trade "sell" q pr p = (0, p)) ∧
    (execute_trade "sell" q pr p).1 ≤ p.stock ∧
    0 ≤ (execute_trade "sell" q pr p).2.stock := by
  have hsell : ¬ (("sell" : String) = "buy" ∧ q > 0) := by
    intro h; exact absurd h.1 (by decide)
  have hmin0 : 0 ≤ min q p.stock := le_min (le_of_lt hq) hstock
  by_cases hpos : 0 < min q p.stock
  · have he : execute_trade "sell" q pr p =
        (min q p.stock,
          ⟨p.cash + min q p.stock * pr, p.stock - min q p.stock⟩) := by
      unfold execute_trade
      rw [if_neg hsell, if_pos ⟨rfl, hq⟩, if_pos hpos]
    refine ⟨by rw [he], fun _ => he, fun h => absurd hpos h, ?_, ?_⟩
    · rw [he]; exact min_le_right _ _
    · rw [he]; simp only
      have := min_le_right q p.stock
      linarith
  · have hz : min q p.stock = 0 := le_antisymm (not_lt.mp hpos) hmin0
    have he : execute_trade "sell" q pr p = (0, p) := by
      unfold execute_trade
      rw [if_neg hsell, if_pos ⟨rfl, hq⟩, if_neg hpos]
    refine ⟨by rw [he, hz], fun h => absurd h hpos, fun _ => he, ?_, ?_⟩
    · rw [he]; exact hstock
    · rw [he]; exact hstock

theorem C3_witness :
    ((0 : ℚ) < 5 ∧ (0 : ℚ) ≤ 0) ∧
    (execute_trade "sell" 5 100 ⟨1000, 0⟩).1 = min (5 : ℚ) 0 ∧
    execute_trade "sell" 5 100 ⟨1000, 0⟩ = (0, ⟨1000, 0⟩) := by
  have h := C3_sell_cases 5 100 ⟨1000, 0⟩ (by norm_num) (by norm_num)
  exact ⟨⟨by norm_num, by norm_num⟩, h.1, h.2.2.1 (by norm_num)⟩

/-- C9: `hold`, a non-positive quantity, or an unrecognized action
returns 0 and leaves the portfolio (both cash and stock) unchanged. -/
theorem C9_noop (action : String) (q pr : ℚ) (p : Portfolio)
    (h : action = "hold" ∨ q ≤ 0 ∨
      (action ≠ "buy" ∧ action ≠ "sell" ∧ action ≠ "hold")) :
    execute_trade action q pr p = (0, p) := by
  have hbuy : ¬ (action = "buy" ∧ q > 0) := by
    rcases h with h | h | h
    · rintro ⟨ha, -⟩; rw [h] at ha; exact absurd ha (by decide)
    · rintro ⟨-, hq⟩; exact absurd hq (not_lt.mpr h)
    · rintro ⟨ha, -⟩; exact h.1 ha
  have hsell : ¬ (action = "sell" ∧ q > 0) := by
    rcases h with h | h | h
    · rintro ⟨ha, -⟩; rw [h] at ha; exact absurd ha (by decide)
    · rintro ⟨-, hq⟩; exact absurd hq (not_lt.mpr h)
    · rintro ⟨ha, -⟩; exact h.2.1 ha
  unfold execute_trade
  rw [if_neg hbuy, if_neg hsell]

theorem C9_witness :
    (("hold" : String) = "hold" ∨ (7 : ℚ) ≤ 0 ∨
      (("hold" : String) ≠ "buy" ∧ ("hold" : String) ≠ "sell" ∧
        ("hold" : String) ≠ "hold")) ∧
    execute_trade "hold" 7 100 ⟨1000, 2⟩ = (0, ⟨1000, 2⟩) :=
  ⟨Or.inl rfl, C9_noop "hold" 7 100 ⟨1000, 2⟩ (Or.inl rfl)⟩

/-- C10: with a positive price the filled quantity is never negative,
and never exceeds the requested quantity when that request is
positive. -/
theorem C10_fill_bounds (action : String) (q pr : ℚ) (p : Portfolio)
    (hpr : 0 < pr) :
    0 ≤ (execute_trade action q pr p).1 ∧
      (0 < q → (execute_trade action q pr p).1 ≤ q) := by
  simp only [execute_trade]
  split_ifs with h1 h2 h3 h4 h5 <;> dsimp only
  · exact ⟨le_of_lt h1.2, fun _ => le_refl q⟩
  · have hlt : ((⌊p.cash / pr⌋ : ℤ) : ℚ) < q := by
      have h1' : p.cash < q * pr := lt_of_not_le h2
      have hdiv : p.cash / pr < q := (div_lt_iff₀ hpr).mpr h1'
      exact lt_of_le_of_lt (Int.floor_le _) hdiv
    exact ⟨le_of_lt h3, fun _ => le_of_lt hlt⟩
  · exact ⟨le_refl 0, fun hq => le_of_lt hq⟩
  · exact ⟨le_of_lt h5, fun _ => min_le_left _ _⟩
  · exact ⟨le_refl 0, fun hq => le_of_lt hq⟩
  · exact ⟨le_refl 0, fun hq => le_of_lt hq⟩

theorem C10_witness :
    (0 : ℚ) < 30 ∧ 0 ≤ (execute_trade "buy" 10 30 ⟨100, 0⟩).1 ∧
      ((0 : ℚ) < 10 → (execute_trade "buy" 10 30 ⟨100, 0⟩).1 ≤ 10) := by
  have h := C10_fill_bounds "buy" 10 30 ⟨100, 0⟩ (by norm_num)
  exact ⟨by norm_num, h.1, h.2⟩

/-- C4, counterexample: the input `{"action": 1, "quantity": "x"}`
decodes, but its fields have the wrong types (a numeric action, a
non-numeric quantity); `parse_action` does not return the safe default
`("hold", 0)` for it — it returns the two field values verbatim. -/
theorem C4_counterexample :
    ¬ decodesWellTyped
        (some (Json.obj [("action", Json.num 1), ("quantity", Json.str "x")])) ∧
    parse_action
        (some (Json.obj [("action", Json.num 1), ("quantity", Json.str "x")]))
      = (Json.num 1, Json.str "x") ∧
    parse_action
        (some (Json.obj [("action", Json.num 1), ("quantity", Json.str "x")]))
      ≠ (Json.str "hold", Json.num 0) := by
  refine ⟨?_, rfl, ?_⟩
  · rintro ⟨fields, a, q, hd, ha, hq⟩
    have hf : fields = [("action", Json.num 1), ("quantity", Json.str "x")] := by
      injection hd with hd2
      injection hd2 with hd3
      exact hd3.symm
    rw [hf] at hq
    have hq2 : Json.str "x" = Json.num q := Option.some.inj hq
    exact Json.noConfusion hq2
  · intro h
    exact Json.noConfusion (congrArg Prod.fst h)

/-- C4 (amended): `parse_action` is total (the bare `except` means no
exception reaches the caller) and returns the safe default `("hold", 0)`
exactly on decode failure, a non-object top-level value, or a missing
`action`/`quantity` key; when both keys are present it returns the two
field values verbatim, with no type checking — wrong-typed fields are
passed through, not defaulted. -/
theorem C4_parse_default_on_failure :
    (∀ d : Option Json, (∀ fields, d ≠ some (Json.obj fields)) →
      parse_action d = (Json.str "hold", Json.num 0)) ∧
    (∀ fields : List (String × Json),
      lookupField fields "action" = none ∨
        lookupField fields "quantity" = none →
      parse_action (some (Json.obj fields)) = (Json.str "hold", Json.num 0)) ∧
    (∀ fields a q, lookupField fields "action" = some a →
      lookupField fields "quantity" = some q →
      parse_action (some (Json.obj fields)) = (a, q)) := by
  refine ⟨fun d hd => ?_, fun fields h => ?_, fun fields a q ha hq => ?_⟩
  · match d with
    | none => rfl
    | some Json.null => rfl
    | some (Json.bool b) => rfl
    | some (Json.num q) => rfl
    | some (Json.str s) => rfl
    | some (Json.arr xs) => rfl
    | some (Json.obj fields) => exact absurd rfl (hd fields)
  · rcases h with h | h
    · rcases hq2 : lookupField fields "quantity" with _ | q2 <;>
        simp [parse_action, h, hq2]
    · rcases ha2 : lookupField fields "action" with _ | a2 <;>
        simp [parse_action, h, ha2]
  · simp [parse_action, ha, hq]

theorem C4_witness :
    parse_action
        (some (Json.obj [("action", Json.str "sell"), ("quantity", Json.num 5)]))
      = (Json.str "sell", Json.num 5) ∧
    parse_action none = (Json.str "hold", Json.num 0) ∧
    parse_action (some (Json.obj [("foo", Json.null)]))
      = (Json.str "hold", Json.num 0) :=
  ⟨C4_parse_default_on_failure.2.2 _ _ _ rfl rfl,
   C4_parse_default_on_failure.1 none (fun _ h => Option.noConfusion h),
   C4_parse_default_on_failure.2.1 _ (Or.inl rfl)⟩

/-- The trace of `run_backtest` over `n` days has exactly six events per
day. -/
theorem runTrace_length (n : ℕ) : (runTrace n).length = 6 * n := by
  induction n with
  | zero => rfl
  | succ n ih => simp [runTrace, dayTrace, ih]; omega

/-- C5, counterexample: already on a one-day backtest, the price fetch
(`get_price_data`, backtester.py line 73) happens at position 2 of the
day's trace, after the decision source (`self.agent(...)`, line 65) at
position 0 — not before it as the claim states. -/
theorem C5_counterexample :
    (runTrace 1).indexOf (0, LoopEvent.fetchPrices) = 2 ∧
    (runTrace 1).indexOf (0, LoopEvent.agentInvoke) = 0 ∧
    ¬ (runTrace 1).indexOf (0, LoopEvent.fetchPrices) <
        (runTrace 1).indexOf (0, LoopEvent.agentInvoke) := by decide

/-- C5 (amended): on every simulated day the decision source is invoked
first (trace position `6d`), and the price bars for the lookback window
are requested only afterwards (trace position `6d + 2`); consequently a
day whose price window turns out empty still invokes the decision source
before the failure propagates. -/
theorem C5_agent_before_fetch (n d : ℕ) (hd : d < n) :
    (runTrace n).get? (6 * d) = some (d, LoopEvent.agentInvoke) ∧
    (runTrace n).get? (6 * d + 2) = some (d, LoopEvent.fetchPrices) := by
  induction n with
  | zero => omega
  | succ n ih =>
    by_cases h : d < n
    · refine ⟨?_, ?_⟩
      · rw [runTrace, List.get?_append (by rw [runTrace_length]; omega)]
        exact (ih h).1
      · rw [runTrace, List.get?_append (by rw [runTrace_length]; omega)]
        exact (ih h).2
    · have hdn : d = n := by omega
      subst hdn
      refine ⟨?_, ?_⟩
      · rw [runTrace, List.get?_append_right (by simp [runTrace_length]),
          runTrace_length]
        have h6 : 6 * d - 6 * d = 0 := by omega
        rw [h6]; rfl
      · rw [runTrace, List.get?_append_right (by rw [runTrace_length]; omega),
          runTrace_length]
        have h6 : 6 * d + 2 - 6 * d = 2 := by omega
        rw [h6]; rfl

theorem zipWith_cons_replicate (f : ℚ → ℚ → PFloat) (n : ℕ) (c : ℚ) :
    List.zipWith f (c :: List.replicate n c) (List.replicate n c) =
      List.replicate n (f c c) := by
  induction n with
  | zero => rfl
  | succ m ih => simpa [List.replicate_succ] using ih

/-- Applying `pct_change` to a constant series: NaN followed by copies of the
constant one-step return. -/
theorem pct_change_replicate (n : ℕ) (c : ℚ) :
    pct_change (List.replicate (n + 1) c) =
      PFloat.nan ::
        List.replicate n (psub (pdiv (PFloat.num c) (PFloat.num c))
          (PFloat.num 1)) := by
  rw [List.replicate_succ]
  simp only [pct_change]
  rw [zipWith_cons_replicate]

theorem dropNan_replicate_num (n : ℕ) (q : ℚ) :
    dropNan (List.replicate n (PFloat.num q)) =
      List.replicate n (PFloat.num q) := by
  induction n with
  | zero => rfl
  | succ m ih => simp [List.replicate_succ, dropNan, ih]

theorem dropNan_replicate_nan (n : ℕ) :
    dropNan (List.replicate n PFloat.nan) = [] := by
  induction n with
  | zero => rfl
  | succ m ih => simp [List.replicate_succ, dropNan, ih]

theorem foldl_padd_replicate_zero (n : ℕ) (a : ℚ) :
    List.foldl padd (PFloat.num a) (List.replicate n (PFloat.num 0)) =
      PFloat.num a := by
  induction n generalizing a with
  | zero => rfl
  | succ m ih => simpa [List.replicate_succ, padd] using ih a

theorem psum_replicate_zero (n : ℕ) :
    psum (List.replicate n (PFloat.num 0)) = PFloat.num 0 :=
  foldl_padd_replicate_zero n 0

theorem C5_witness :
    0 < 1 ∧
    (runTrace 1).get? 0 = some (0, LoopEvent.agentInvoke) ∧
    (runTrace 1).get? 2 = some (0, LoopEvent.fetchPrices) :=
  ⟨Nat.zero_lt_one, (C5_agent_before_fetch 1 0 Nat.zero_lt_one).1,
   (C5_agent_before_fetch 1 0 Nat.zero_lt_one).2⟩

/-- C6, counterexample: the value series `[100, 200, 400]` has a daily
return series `[NaN, 1, 1]` with zero sample standard deviation
(sample variance 0), yet the Sharpe ratio the code computes is `+inf`
(`1 / 0.0` times the positive annualization factor), not a distinct
undefined value. -/
theorem C6_counterexample :
    series_var (pct_change [100, 200, 400]) = PFloat.num 0 ∧
    sharpe_sgnsq [100, 200, 400] = PFloat.inf := by
  have h1 : pct_change [100, 200, 400] =
      [PFloat.nan, PFloat.num 1, PFloat.num 1] := by
    norm_num [pct_change, psub, pdiv]
  have h2 : dropNan [PFloat.nan, PFloat.num 1, PFloat.num 1] =
      [PFloat.num 1, PFloat.num 1] := by
    simp [dropNan]
  have h3 : series_mean [PFloat.nan, PFloat.num 1, PFloat.num 1] =
      PFloat.num 1 := by
    norm_num [series_mean, h2, psum, padd, pdiv]
  have h4 : series_var [PFloat.nan, PFloat.num 1, PFloat.num 1] =
      PFloat.num 0 := by
    norm_num [series_var, h2, h3, psub, pmul, psum, padd, pdiv]
  constructor
  · rw [h1, h4]
  · simp only [sharpe_sgnsq]
    rw [h1, h3, h4]
    norm_num [pmul, pabs, pdiv]

/-- C7, counterexample: two calls of `analyze_performance` on the same
ValueRecord sequence `[100]` and the same initial capital 100, but with
the portfolio's `portfolio_value` mark (read on backtester.py line 100)
equal to 100 in one state and 200 in the other, yield different total
returns — the outputs depend on state other than the sequence and the
initial capital. -/
theorem C7_counterexample :
    analyze_performance [100] 100 100 ≠ analyze_performance [100] 200 100 := by
  intro h
  have h2 := congrArg Perf.total_return h
  norm_num [analyze_performance] at h2

/-- C7 (amended): `analyze_performance` is a deterministic function of
the ValueRecord sequence, the portfolio's `portfolio_value` mark and the
initial capital, with no other inputs: the Sharpe ratio and maximum
drawdown depend on the sequence alone, the total return additionally
reads `portfolio["portfolio_value"]`; and the simulation loop keeps that
mark equal to the last recorded value, so that for loop-produced states
the whole report is reproducible from the sequence and the initial
capital. -/
theorem C7_analyze_deterministic :
    (∀ (records : List ℚ) (pv cap pv2 cap2 : ℚ),
      (analyze_performance records pv cap).sharpe_sgnsq =
        (analyze_performance records pv2 cap2).sharpe_sgnsq ∧
      (analyze_performance records pv cap).max_drawdown =
        (analyze_performance records pv2 cap2).max_drawdown) ∧
    (∀ (records : List ℚ) (pv cap : ℚ),
      analyze_performance records pv cap =
        analyze_performance records pv cap) ∧
    (∀ (days : List (String × ℚ × ℚ)) (s : BState),
      s.portfolio_value = s.records.getLast? →
      (run_backtest days s).portfolio_value =
        (run_backtest days s).records.getLast?) := by
  refine ⟨fun records pv cap pv2 cap2 => ⟨rfl, rfl⟩,
    fun records pv cap => rfl, fun days => ?_⟩
  induction days with
  | nil => intro s hs; exact hs
  | cons d rest ih =>
    intro s hs
    have hstep : (stepDay d.1 d.2.1 d.2.2 s).portfolio_value =
        (stepDay d.1 d.2.1 d.2.2 s).records.getLast? := by
      simp [stepDay]
    exact ih (stepDay d.1 d.2.1 d.2.2 s) hstep

theorem C7_witness :
    (BState.mk 1000 0 none []).portfolio_value =
      (BState.mk 1000 0 none []).records.getLast? ∧
    (run_backtest [("buy", 5, 100)] ⟨1000, 0, none, []⟩).portfolio_value =
      (run_backtest [("buy", 5, 100)] ⟨1000, 0, none, []⟩).records.getLast? :=
  ⟨rfl, C7_analyze_deterministic.2.2 [("buy", 5, 100)] ⟨1000, 0, none, []⟩ rfl⟩

/-- The running maximum continued from `m` at index `i` is the fold of
`max` over the first `i + 1` elements, seeded with `m`. -/
theorem cummaxFrom_getq (l : List ℚ) :
    ∀ (m : ℚ) (i : ℕ), i < l.length →
      (cummaxFrom m l).get? i = some ((l.take (i + 1)).foldl max m) := by
  induction l with
  | nil => intro m i hi; simp at hi
  | cons v rest ih =>
    intro m i hi
    cases i with
    | zero => simp [cummaxFrom]
    | succ j =>
      have hj : j < rest.length := by
        simpa using Nat.lt_of_succ_lt_succ hi
      simp only [cummaxFrom, List.get?_cons_succ, List.take_succ_cons,
        List.foldl_cons]
      exact ih (max m v) j hj

/-- The function `cummax` computes the prefix maxima: entry `i` is
`max(V_0 .. V_i)`. -/
theorem cummax_getq (vs : List ℚ) (i : ℕ) (hi : i < vs.length) :
    (cummax vs).get? i = (vs.take (i + 1)).maximum? := by
  cases vs with
  | nil => simp at hi
  | cons v rest =>
    cases i with
    | zero => rfl
    | succ j =>
      have hj : j < rest.length := by
        simpa using Nat.lt_of_succ_lt_succ hi
      show (cummaxFrom v rest).get? j = _
      rw [cummaxFrom_getq rest v j hj]
      rfl

/-- Every drawdown entry over a positive tail is a non-positive
number, whatever maximum the running maximum continues from. -/
theorem drawdown_tail_nonpos (l : List ℚ) :
    ∀ (m : ℚ), (∀ v ∈ l, 0 < v) →
      ∀ d ∈ List.zipWith
        (fun v mx => psub (pdiv (PFloat.num v) (PFloat.num mx)) (PFloat.num 1))
        l (cummaxFrom m l),
        ∃ q, q ≤ 0 ∧ d = PFloat.num q := by
  induction l with
  | nil => intro m _ d hd; simp at hd
  | cons v rest ih =>
    intro m hpos d hd
    simp only [cummaxFrom, List.zipWith_cons_cons, List.mem_cons] at hd
    rcases hd with hd | hd
    · have hv : 0 < v := hpos v (List.mem_cons_self _ _)
      have hM : 0 < max m v := lt_of_lt_of_le hv (le_max_right m v)
      refine ⟨v / max m v - 1, ?_, ?_⟩
      · have hle : v / max m v ≤ 1 :=
          (div_le_one hM).mpr (le_max_right m v)
        linarith
      · rw [hd]
        simp [pdiv, psub, ne_of_gt hM]
    · exact ih (max m v) (fun x hx => hpos x (List.mem_cons_of_mem _ hx)) d hd

/-- Dropping NaNs from a NaN-free series is the identity. -/
theorem dropNan_eq_self (l : List PFloat) (h : ∀ x ∈ l, x ≠ PFloat.nan) :
    dropNan l = l := by
  induction l with
  | nil => rfl
  | cons x rest ih =>
    rw [dropNan, if_neg (h x (List.mem_cons_self _ _))]
    rw [ih (fun y hy => h y (List.mem_cons_of_mem _ hy))]

/-- Folding `pmin2` over numeric entries from a numeric seed yields the
least of them. -/
theorem foldl_pmin2_num (l : List PFloat) :
    ∀ (a : ℚ), (∀ x ∈ l, ∃ q, x = PFloat.num q) →
      ∃ r : ℚ, l.foldl pmin2 (PFloat.num a) = PFloat.num r ∧ r ≤ a ∧
        (PFloat.num r = PFloat.num a ∨ PFloat.num r ∈ l) ∧
        ∀ x ∈ l, pleq (PFloat.num r) x := by
  induction l with
  | nil =>
    intro a _
    exact ⟨a, rfl, le_refl a, Or.inl rfl, by simp⟩
  | cons x rest ih =>
    intro a hl
    obtain ⟨b, hb⟩ := hl x (List.mem_cons_self _ _)
    subst hb
    obtain ⟨r, hr, hra, hmem, hlb⟩ :=
      ih (min a b) (fun y hy => hl y (List.mem_cons_of_mem _ hy))
    have hfold : (PFloat.num b :: rest).foldl pmin2 (PFloat.num a) =
        PFloat.num r := by
      simpa [pmin2] using hr
    refine ⟨r, hfold, le_trans hra (min_le_left a b), ?_, ?_⟩
    · rcases hmem with h | h
      · rcases min_choice a b with hmin | hmin
        · left; rw [h, hmin]
        · right; rw [h, hmin]; exact List.mem_cons_self _ _
      · right; exact List.mem_cons_of_mem _ h
    · intro y hy
      rcases List.mem_cons.mp hy with rfl | hy2
      · exact (le_trans hra (min_le_right a b) : r ≤ b)
      · exact hlb y hy2

/-- C8, counterexample: on the value series `[-1, -2]` the code's
drawdown series is `[0, 1]` — the running maximum is `-1` throughout and
`(-2)/(-1) - 1 = 1` — so the entry at index 1 is positive, contradicting
"every D_i ≤ 0" as stated for arbitrary series. -/
theorem C8_counterexample :
    drawdown [-1, -2] = [PFloat.num 0, PFloat.num 1] ∧
    max_drawdown [-1, -2] = PFloat.num 0 ∧
    ¬ (∀ d ∈ drawdown [(-1 : ℚ), -2], ∃ q, q ≤ 0 ∧ d = PFloat.num q) := by
  have h1 : drawdown [-1, -2] = [PFloat.num 0, PFloat.num 1] := by
    norm_num [drawdown, cummax, cummaxFrom, pdiv, psub, max_def]
  refine ⟨h1, ?_, ?_⟩
  · rw [max_drawdown, h1]
    have h2 : dropNan [PFloat.num 0, PFloat.num 1] =
        [PFloat.num 0, PFloat.num 1] := by simp [dropNan]
    rw [h2]
    show pmin2 (PFloat.num 0) (PFloat.num 1) = PFloat.num 0
    norm_num [pmin2, min_def]
  · intro h
    obtain ⟨q, hq0, hq⟩ := h (PFloat.num 1) (by rw [h1]; simp)
    have : (1 : ℚ) = q := by
      injection hq
    linarith

/-- C8 (amended): for every non-empty series of positive values, the
running maximum is the prefix maximum `max(V_0..V_i)`, every drawdown
entry `D_i = V_i / max(V_0..V_i) - 1` is a non-positive number, and
`max_drawdown` is the least drawdown entry (it is attained and bounds
every entry from below); positivity is needed, for series with negative
values the code produces positive drawdowns (see the counterexample). -/
theorem C8_drawdown_spec (vs : List ℚ) (hne : vs ≠ [])
    (hpos : ∀ v ∈ vs, 0 < v) :
    (∀ i, i < vs.length → (cummax vs).get? i = (vs.take (i + 1)).maximum?) ∧
    (∀ d ∈ drawdown vs, ∃ q, q ≤ 0 ∧ d = PFloat.num q) ∧
    max_drawdown vs ∈ drawdown vs ∧
    (∀ d ∈ drawdown vs, pleq (max_drawdown vs) d) := by
  match vs, hne with
  | v :: rest, _ =>
  have hv : 0 < v := hpos v (List.mem_cons_self _ _)
  have hrestpos : ∀ x ∈ rest, 0 < x :=
    fun x hx => hpos x (List.mem_cons_of_mem _ hx)
  have hhead : psub (pdiv (PFloat.num v) (PFloat.num v)) (PFloat.num 1) =
      PFloat.num 0 := by
    simp [pdiv, psub, ne_of_gt hv, div_self (ne_of_gt hv)]
  have hdd : drawdown (v :: rest) =
      PFloat.num 0 ::
        List.zipWith
          (fun x mx => psub (pdiv (PFloat.num x) (PFloat.num mx))
            (PFloat.num 1)) rest (cummaxFrom v rest) := by
    simp only [drawdown, cummax, List.zipWith_cons_cons, hhead]
  have htail := drawdown_tail_nonpos rest v hrestpos
  have hall : ∀ d ∈ drawdown (v :: rest), ∃ q, q ≤ 0 ∧ d = PFloat.num q := by
    intro d hd
    rw [hdd, List.mem_cons] at hd
    rcases hd with hd | hd
    · exact ⟨0, le_refl 0, hd⟩
    · exact htail d hd
  have hnn : ∀ d ∈ drawdown (v :: rest), d ≠ PFloat.nan := by
    intro d hd
    obtain ⟨q, _, hq⟩ := hall d hd
    rw [hq]
    exact fun hcon => PFloat.noConfusion hcon
  have hdrop : dropNan (drawdown (v :: rest)) = drawdown (v :: rest) :=
    dropNan_eq_self _ hnn
  have htailnum : ∀ x ∈ List.zipWith
      (fun x mx => psub (pdiv (PFloat.num x) (PFloat.num mx)) (PFloat.num 1))
      rest (cummaxFrom v rest), ∃ q, x = PFloat.num q := by
    intro x hx
    obtain ⟨q, _, hq⟩ := htail x hx
    exact ⟨q, hq⟩
  obtain ⟨r, hfold, hr0, hmem, hlb⟩ := foldl_pmin2_num _ 0 htailnum
  have hmd : max_drawdown (v :: rest) = PFloat.num r := by
    rw [max_drawdown, hdrop, hdd]
    exact hfold
  refine ⟨fun i hi => cummax_getq _ i hi, hall, ?_, ?_⟩
  · rw [hmd, hdd]
    rcases hmem with h | h
    · rw [h]; exact List.mem_cons_self _ _
    · exact List.mem_cons_of_mem _ h
  · intro d hd
    rw [hdd, List.mem_cons] at hd
    rw [hmd]
    rcases hd with rfl | hd
    · exact (hr0 : r ≤ 0)
    · exact hlb d hd

theorem C8_witness :
    (([100, 110, 99, 121] : List ℚ) ≠ []) ∧
    (∀ v ∈ ([100, 110, 99, 121] : List ℚ), 0 < v) ∧
    drawdown [100, 110, 99, 121] =
      [PFloat.num 0, PFloat.num 0, PFloat.num (-1/10), PFloat.num 0] ∧
    max_drawdown [100, 110, 99, 121] = PFloat.num (-1/10) ∧
    max_drawdown [100, 110, 99, 121] ∈ drawdown [100, 110, 99, 121] := by
  have h := (C8_drawdown_spec [100, 110, 99, 121] (by simp)
    (by norm_num)).2.2.1
  have hdd : drawdown [100, 110, 99, 121] =
      [PFloat.num 0, PFloat.num 0, PFloat.num (-1/10), PFloat.num 0] := by
    norm_num [drawdown, cummax, cummaxFrom, pdiv, psub, max_def]
  refine ⟨by simp, by norm_num, hdd, ?_, h⟩
  rw [max_drawdown, hdd]
  have h2 : dropNan [PFloat.num 0, PFloat.num 0, PFloat.num (-1/10),
      PFloat.num 0] =
      [PFloat.num 0, PFloat.num 0, PFloat.num (-1/10), PFloat.num 0] := by
    simp [dropNan]
  rw [h2]
  show List.foldl pmin2 (PFloat.num 0)
      [PFloat.num 0, PFloat.num (-1/10), PFloat.num 0] = PFloat.num (-1/10)
  norm_num [pmin2, min_def]

/-- C6 (amended): for every constant (or single-point, or empty) value
series the code's Sharpe ratio is NaN — the daily returns are all 0 (or
NaN), their mean is 0 (or NaN) and their sample standard deviation is 0
(or NaN), and `0.0 / 0.0` is NaN; but this does not extend to every
zero-standard-deviation return series: with constant nonzero returns the
code produces `±inf` (see the counterexample), so "undefined, not
infinity" holds only for the constant-series case the claim
parenthesizes. -/
theorem C6_sharpe_constant_nan (n : ℕ) (c : ℚ) :
    sharpe_sgnsq (List.replicate n c) = PFloat.nan := by
  cases n with
  | zero => rfl
  | succ m =>
    by_cases hc : c = 0
    · subst hc
      have hret : pct_change (List.replicate (m + 1) (0 : ℚ)) =
          PFloat.nan :: List.replicate m PFloat.nan := by
        rw [pct_change_replicate]
        have hx : psub (pdiv (PFloat.num 0) (PFloat.num 0)) (PFloat.num 1) =
            PFloat.nan := by
          simp [pdiv, psub]
        rw [hx]
      simp only [sharpe_sgnsq]
      rw [hret]
      have hdrop : dropNan (PFloat.nan :: List.replicate m PFloat.nan) = [] := by
        simp [dropNan, dropNan_replicate_nan]
      simp [series_mean, series_var, hdrop, pmul, pabs, pdiv]
    · have hret : pct_change (List.replicate (m + 1) c) =
          PFloat.nan :: List.replicate m (PFloat.num 0) := by
        rw [pct_change_replicate]
        have hx : psub (pdiv (PFloat.num c) (PFloat.num c)) (PFloat.num 1) =
            PFloat.num 0 := by
          simp [pdiv, psub, hc, div_self hc]
        rw [hx]
      simp only [sharpe_sgnsq]
      rw [hret]
      have hdrop : dropNan (PFloat.nan :: List.replicate m (PFloat.num 0)) =
          List.replicate m (PFloat.num 0) := by
        simp [dropNan, dropNan_replicate_num]
      cases m with
      | zero =>
        simp [series_mean, series_var, dropNan, psum, padd, psub, pmul,
          pabs, pdiv]
      | succ m1 =>
        have hmean : series_mean
            (PFloat.nan :: List.replicate (m1 + 1) (PFloat.num 0)) =
            PFloat.num 0 := by
          simp only [series_mean]
          rw [hdrop]
          simp only [List.length_replicate]
          rw [if_neg (Nat.succ_ne_zero m1), psum_replicate_zero]
          have hq : ((m1 : ℚ) + 1) ≠ 0 := by positivity
          simp [pdiv, hq]
        cases m1 with
        | zero =>
          simp [series_mean, series_var, dropNan, psum, padd, psub, pmul,
            pabs, pdiv]
        | succ m2 =>
          have hvar : series_var
              (PFloat.nan :: List.replicate (m2 + 1 + 1) (PFloat.num 0)) =
              PFloat.num 0 := by
            simp only [series_var]
            rw [hdrop, hmean]
            simp only [List.map_replicate, List.length_replicate]
            have hg : pmul (psub (PFloat.num 0) (PFloat.num 0))
                (psub (PFloat.num 0) (PFloat.num 0)) = PFloat.num 0 := by
              norm_num [psub, pmul]
            rw [hg, psum_replicate_zero, if_neg (by omega)]
            have hq : ((m2 : ℚ) + 1) ≠ 0 := by positivity
            simp [pdiv, hq]
          rw [hmean, hvar]
          norm_num [pmul, pabs, pdiv]
